import Mathlib

/-!
Verification of the arbitrage engine's core against its specification.

The definitions below are a shallow embedding of the Python sources:
  * `src/arbitrage/exchanges/orderbook_ws.py` (book replication),
  * `src/arbitrage/strategy/logic.py` (candidate engine, hybrid executor,
    exit decision),
  * `src/arbitrage/strategy/pending.py` (pending-fill registry),
  * `src/arbitrage/data/bus.py` together with
    `src/arbitrage/data/adapters/binance/ws_orderbook.py` and
    `src/arbitrage/exchanges/legs.py` (market-data bus keying).

Python floats are modelled as rationals (the operations used by the code —
comparisons, min/max, field arithmetic on small literals — have the same
branch structure over ℚ); Python dicts are modelled as association lists
with dict update semantics (replace in place, append if new); wall-clock
time, sockets and threads are not modelled: each handler runs atomically,
which matches the source because every handler body runs under the
instance lock.
-/

namespace Arb

abbrev Price := ℚ
abbrev Qty := ℚ

/-- A price→quantity map (Python `dict`), insertion ordered. -/
abbrev Book := List (Price × Qty)

/-- `book.pop(p, None)` — drop the entry for price `p`, if any. -/
def bookErase (p : Price) (b : Book) : Book :=
  b.filter (fun e => decide (e.1 ≠ p))

/-- `book[p] = q` — dict update: replace in place, else append. -/
def bookSet (p : Price) (q : Qty) : Book → Book
  | [] => [(p, q)]
  | e :: rest => if e.1 = p then (p, q) :: rest else e :: bookSet p q rest

/-- `book.get(p)`. -/
def bookLookup (p : Price) : Book → Option Qty
  | [] => none
  | e :: rest => if e.1 = p then some e.2 else bookLookup p rest

/-- One delta of `_apply_side` (`orderbook_ws.py`): quantity zero removes
the level, any other quantity upserts it. -/
def applyOne (b : Book) (u : Price × Qty) : Book :=
  if u.2 = 0 then bookErase u.1 b else bookSet u.1 u.2 b

/-- `_apply_side(updates, book)` from `orderbook_ws.py`. -/
def applySide (updates : List (Price × Qty)) (book : Book) : Book :=
  updates.foldl applyOne book

/-- `_apply_updates` from `data/adapters/binance/ws_orderbook.py`: same as
`_apply_side` except that any quantity `≤ 0` removes the level. -/
def applyUpdates (updates : List (Price × Qty)) (book : Book) : Book :=
  updates.foldl (fun b u => if u.2 ≤ 0 then bookErase u.1 b else bookSet u.1 u.2 b) book

/-- A parsed `depthUpdate` event: `U`/`u` are the first/final update
sequence numbers, `pu` the optional previous-final sequence number, and
`b`/`a` the bid/ask deltas (`DiffEvent` of the spec). -/
structure DiffEvent where
  firstU : ℤ
  finalU : ℤ
  pu : Option ℤ
  b : List (Price × Qty)
  a : List (Price × Qty)
deriving DecidableEq

/-- `BookState` from `orderbook_ws.py` (wall-clock `last_ts` omitted). -/
structure BookState where
  bids : Book
  asks : Book
  lastUpdateId : ℤ
  lastU : ℤ
  ready : Bool
deriving DecidableEq

/-- The mutable state of a `DepthMaintainer`: its `BookState`, the diff
buffer `buf`, and the `_resyncing` flag. -/
structure MaintainerState where
  state : BookState
  buf : List DiffEvent
  resyncing : Bool
deriving DecidableEq

/-- `DepthMaintainer._trigger_resync`. -/
def triggerResync (m : MaintainerState) : MaintainerState :=
  if m.resyncing then m
  else { m with resyncing := true, state := { m.state with ready := false }, buf := [] }

/-- Apply one event's deltas and advance `last_u` (the tail of
`_on_msg`'s READY branch). -/
def applyEvent (m : MaintainerState) (ev : DiffEvent) : MaintainerState :=
  { m with state := { m.state with
      bids := applySide ev.b m.state.bids,
      asks := applySide ev.a m.state.asks,
      lastU := ev.finalU } }

/-- `DepthMaintainer._on_msg` from `orderbook_ws.py`: buffer while not
ready; otherwise check continuity (`pu` equality when present, else the
`U`/`u` window against `last_u + 1`) and either resync or apply. -/
def onMsg (m : MaintainerState) (ev : DiffEvent) : MaintainerState :=
  if m.state.ready then
    match ev.pu with
    | some p =>
      if p ≠ m.state.lastU then triggerResync m else applyEvent m ev
    | none =>
      if ev.finalU < m.state.lastU + 1 then m
      else if ev.firstU > m.state.lastU + 1 then triggerResync m
      else applyEvent m ev
  else { m with buf := m.buf ++ [ev] }

/-- A REST depth snapshot: `lastUpdateId` plus full bid/ask ladders. -/
structure SnapshotMsg where
  lastUpdateId : ℤ
  bids : List (Price × Qty)
  asks : List (Price × Qty)
deriving DecidableEq

/-- `{p: q for p, q in entries}` — build a dict from snapshot rows. -/
def snapshotBook (entries : List (Price × Qty)) : Book :=
  entries.foldl (fun b e => bookSet e.1 e.2 b) []

/-- Snapshot initialization step of `_sync_loop` (`orderbook_ws.py`
lines 204–208): replace both books and set both sequence fields. -/
def initFromSnapshot (m : MaintainerState) (snap : SnapshotMsg) : MaintainerState :=
  { m with state := { m.state with
      bids := snapshotBook snap.bids,
      asks := snapshotBook snap.asks,
      lastUpdateId := snap.lastUpdateId,
      lastU := snap.lastUpdateId } }

/-- The bridging condition of `_drain_buffer_after_snapshot`:
`U <= lastUpdateId + 1 <= u`. -/
def straddles (lastUpdateId : ℤ) (ev : DiffEvent) : Bool :=
  decide (ev.firstU ≤ lastUpdateId + 1) && decide (lastUpdateId + 1 ≤ ev.finalU)

/-- The bridge search of `_drain_buffer_after_snapshot`: the suffix of the
buffer starting at the earliest event straddling `lastUpdateId + 1`
(`cached[start_idx:]`), or `none` when no buffered event bridges. The
bounded wait loop re-scans the same buffer; with time not modelled it is
a single scan. -/
def findBridgeSuffix (lastUpdateId : ℤ) : List DiffEvent → Option (List DiffEvent)
  | [] => none
  | ev :: rest =>
    if straddles lastUpdateId ev then some (ev :: rest)
    else findBridgeSuffix lastUpdateId rest

/-- State threaded through the catch-up loop of
`_drain_buffer_after_snapshot`. -/
structure CatchupState where
  bids : Book
  asks : Book
  appliedU : ℤ
deriving DecidableEq

/-- One iteration of the catch-up loop: re-validate continuity against
`applied_u` (raising on a gap, skipping stale events), then apply. -/
def catchupStep (s : CatchupState) (ev : DiffEvent) : Except String CatchupState :=
  match ev.pu with
  | some p =>
    if p ≠ s.appliedU then Except.error "gap during catch-up: pu mismatch"
    else Except.ok { bids := applySide ev.b s.bids, asks := applySide ev.a s.asks,
                     appliedU := ev.finalU }
  | none =>
    if ev.finalU < s.appliedU + 1 then Except.ok s
    else if ev.firstU > s.appliedU + 1 then Except.error "gap during catch-up: U skips ahead"
    else Except.ok { bids := applySide ev.b s.bids, asks := applySide ev.a s.asks,
                     appliedU := ev.finalU }

/-- The catch-up loop over the buffered suffix; a raised gap error
aborts the loop and propagates. -/
def applyCatchup (s : CatchupState) : List DiffEvent → Except String CatchupState
  | [] => Except.ok s
  | ev :: rest =>
    match catchupStep s ev with
    | Except.error e => Except.error e
    | Except.ok s1 => applyCatchup s1 rest

/-- `_drain_buffer_after_snapshot`: find the bridging event, then apply it
and every later buffered event in arrival order; `applied_u` starts at
`last_u = lastUpdateId`. -/
def drainBufferAfterSnapshot (bids asks : Book) (lastUpdateId : ℤ)
    (buf : List DiffEvent) : Except String CatchupState :=
  match findBridgeSuffix lastUpdateId buf with
  | none => Except.error "no buffered event satisfies U <= lastUpdateId+1 <= u"
  | some suffix => applyCatchup { bids := bids, asks := asks, appliedU := lastUpdateId } suffix

/-- One body of `_sync_loop` given the fetched snapshot: initialize from
the snapshot, drain the buffer, and on success set `ready`, store the
drained sequence and empty the buffer; the drain's exception is caught by
the loop and leaves `ready` untouched. -/
def syncAttempt (m : MaintainerState) (snap : SnapshotMsg) : MaintainerState :=
  let m1 := initFromSnapshot m snap
  match drainBufferAfterSnapshot m1.state.bids m1.state.asks snap.lastUpdateId m1.buf with
  | Except.error _ => { m1 with resyncing := false }
  | Except.ok c =>
    { state :=
        { m1.state with
          bids := c.bids
          asks := c.asks
          lastU := c.appliedU
          ready := true }
      buf := []
      resyncing := false }

/-- The continuity condition checked against `lastAppliedSeq`: via
`prevFinalUpdateSeq` equality when the venue provides it, else via the
first-update sequence not skipping ahead. -/
def continuityViolation (ev : DiffEvent) (lastU : ℤ) : Bool :=
  match ev.pu with
  | some p => decide (p ≠ lastU)
  | none => decide (ev.firstU > lastU + 1)

/-- All levels of a book carry strictly positive quantity. -/
def bookPositive (b : Book) : Prop := ∀ e ∈ b, 0 < e.2

/-- The chained-continuity condition for a buffered suffix: each event in
turn passes the catch-up re-validation and is applied. -/
def chainOk (a : ℤ) : List DiffEvent → Bool
  | [] => true
  | ev :: rest =>
    (match ev.pu with
     | some p => decide (p = a)
     | none => decide (a + 1 ≤ ev.finalU) && decide (ev.firstU ≤ a + 1)) && chainOk ev.finalU rest

/-- The final sequence number after applying every event of the list in
order (`finalUpdateSeq` of the last applied event). -/
def lastFinal (a : ℤ) : List DiffEvent → ℤ
  | [] => a
  | ev :: rest => lastFinal ev.finalU rest

/-! Helper lemmas about book positivity. -/

theorem bookErase_pos (p : Price) (b : Book) (h : bookPositive b) :
    bookPositive (bookErase p b) := by
  intro e he
  exact h e (List.mem_of_mem_filter he)

theorem bookSet_pos (p : Price) (q : Qty) (b : Book) (h : bookPositive b) (hq : 0 < q) :
    bookPositive (bookSet p q b) := by
  induction b with
  | nil =>
    intro e he
    simp only [bookSet, List.mem_singleton] at he
    subst he; exact hq
  | cons x xs ih =>
    have hx : bookPositive xs := fun e he => h e (List.mem_cons_of_mem _ he)
    intro e he
    simp only [bookSet] at he
    by_cases hpx : x.1 = p
    · simp only [hpx, if_true] at he
      rcases List.mem_cons.mp he with rfl | hmem
      · exact hq
      · exact h e (List.mem_cons_of_mem _ hmem)
    · simp only [hpx, if_false] at he
      rcases List.mem_cons.mp he with rfl | hmem
      · exact h e (List.mem_cons_self e xs)
      · exact ih hx e hmem

theorem applyOne_pos (b : Book) (u : Price × Qty) (h : bookPositive b) (hu : 0 ≤ u.2) :
    bookPositive (applyOne b u) := by
  unfold applyOne
  by_cases hz : u.2 = 0
  · simp only [hz, if_true]
    exact bookErase_pos u.1 b h
  · simp only [hz, if_false]
    exact bookSet_pos u.1 u.2 b h (lt_of_le_of_ne hu (Ne.symm hz))

theorem applySide_pos (us : List (Price × Qty)) (b : Book)
    (h : bookPositive b) (hus : ∀ e ∈ us, 0 ≤ e.2) :
    bookPositive (applySide us b) := by
  induction us generalizing b with
  | nil => exact h
  | cons u rest ih =>
    have h1 : bookPositive (applyOne b u) :=
      applyOne_pos b u h (hus u (List.mem_cons_self u rest))
    exact ih (applyOne b u) h1 (fun e he => hus e (List.mem_cons_of_mem _ he))

theorem snapshotBook_pos (entries : List (Price × Qty))
    (h : ∀ e ∈ entries, 0 < e.2) : bookPositive (snapshotBook entries) := by
  have key : ∀ (l : List (Price × Qty)) (acc : Book), (∀ e ∈ l, 0 < e.2) →
      bookPositive acc → bookPositive (l.foldl (fun b e => bookSet e.1 e.2 b) acc) := by
    intro l
    induction l with
    | nil => intro acc _ hacc; exact hacc
    | cons x xs ih =>
      intro acc hl hacc
      simp only [List.foldl_cons]
      exact ih (bookSet x.1 x.2 acc)
        (fun e he => hl e (List.mem_cons_of_mem _ he))
        (bookSet_pos x.1 x.2 acc hacc (hl x (List.mem_cons_self x xs)))
  exact key entries [] h (by intro e he; cases he)

/-- All deltas of a diff event carry non-negative quantities (book sizes
are sizes; a zero means deletion). -/
def eventQtysNonneg (ev : DiffEvent) : Prop :=
  (∀ e ∈ ev.b, 0 ≤ e.2) ∧ (∀ e ∈ ev.a, 0 ≤ e.2)

instance : DecidablePred eventQtysNonneg := fun ev => by
  unfold eventQtysNonneg
  infer_instance

theorem applyEvent_pos (m : MaintainerState) (ev : DiffEvent)
    (hb : bookPositive m.state.bids) (ha : bookPositive m.state.asks)
    (hev : eventQtysNonneg ev) :
    bookPositive (applyEvent m ev).state.bids ∧ bookPositive (applyEvent m ev).state.asks := by
  exact ⟨applySide_pos ev.b m.state.bids hb hev.1, applySide_pos ev.a m.state.asks ha hev.2⟩

theorem triggerResync_books (m : MaintainerState) :
    (triggerResync m).state.bids = m.state.bids ∧ (triggerResync m).state.asks = m.state.asks := by
  unfold triggerResync
  by_cases h : m.resyncing <;> simp [h]

/-! Branch equations for `onMsg` and `catchupStep`. -/

theorem onMsg_not_ready (m : MaintainerState) (ev : DiffEvent)
    (hr : m.state.ready = false) : onMsg m ev = { m with buf := m.buf ++ [ev] } := by
  simp [onMsg, hr]

theorem onMsg_some_gap (m : MaintainerState) (ev : DiffEvent) (p : ℤ)
    (hr : m.state.ready = true) (hpu : ev.pu = some p) (hp : p ≠ m.state.lastU) :
    onMsg m ev = triggerResync m := by
  simp [onMsg, hr, hpu, hp]

theorem onMsg_some_ok (m : MaintainerState) (ev : DiffEvent) (p : ℤ)
    (hr : m.state.ready = true) (hpu : ev.pu = some p) (hp : p = m.state.lastU) :
    onMsg m ev = applyEvent m ev := by
  simp [onMsg, hr, hpu, hp]

theorem onMsg_none_stale (m : MaintainerState) (ev : DiffEvent)
    (hr : m.state.ready = true) (hpu : ev.pu = none)
    (h1 : ev.finalU < m.state.lastU + 1) : onMsg m ev = m := by
  simp [onMsg, hr, hpu, h1]

theorem onMsg_none_gap (m : MaintainerState) (ev : DiffEvent)
    (hr : m.state.ready = true) (hpu : ev.pu = none)
    (h1 : ¬ ev.finalU < m.state.lastU + 1) (h2 : ev.firstU > m.state.lastU + 1) :
    onMsg m ev = triggerResync m := by
  simp [onMsg, hr, hpu, h1, h2]

theorem onMsg_none_ok (m : MaintainerState) (ev : DiffEvent)
    (hr : m.state.ready = true) (hpu : ev.pu = none)
    (h1 : ¬ ev.finalU < m.state.lastU + 1) (h2 : ¬ ev.firstU > m.state.lastU + 1) :
    onMsg m ev = applyEvent m ev := by
  simp [onMsg, hr, hpu, h1, h2]

theorem catchupStep_some_gap (s : CatchupState) (ev : DiffEvent) (p : ℤ)
    (hpu : ev.pu = some p) (hp : p ≠ s.appliedU) :
    catchupStep s ev = Except.error "gap during catch-up: pu mismatch" := by
  simp [catchupStep, hpu, hp]

theorem catchupStep_some_ok (s : CatchupState) (ev : DiffEvent) (p : ℤ)
    (hpu : ev.pu = some p) (hp : p = s.appliedU) :
    catchupStep s ev = Except.ok
      { bids := applySide ev.b s.bids, asks := applySide ev.a s.asks, appliedU := ev.finalU } := by
  simp [catchupStep, hpu, hp]

theorem catchupStep_none_stale (s : CatchupState) (ev : DiffEvent)
    (hpu : ev.pu = none) (h1 : ev.finalU < s.appliedU + 1) :
    catchupStep s ev = Except.ok s := by
  simp [catchupStep, hpu, h1]

theorem catchupStep_none_gap (s : CatchupState) (ev : DiffEvent)
    (hpu : ev.pu = none) (h1 : ¬ ev.finalU < s.appliedU + 1)
    (h2 : ev.firstU > s.appliedU + 1) :
    catchupStep s ev = Except.error "gap during catch-up: U skips ahead" := by
  simp [catchupStep, hpu, h1, h2]

theorem catchupStep_none_ok (s : CatchupState) (ev : DiffEvent)
    (hpu : ev.pu = none) (h1 : ¬ ev.finalU < s.appliedU + 1)
    (h2 : ¬ ev.firstU > s.appliedU + 1) :
    catchupStep s ev = Except.ok
      { bids := applySide ev.b s.bids, asks := applySide ev.a s.asks, appliedU := ev.finalU } := by
  simp [catchupStep, hpu, h1, h2]

theorem onMsg_pos (m : MaintainerState) (ev : DiffEvent)
    (hb : bookPositive m.state.bids) (ha : bookPositive m.state.asks)
    (hev : eventQtysNonneg ev) :
    bookPositive (onMsg m ev).state.bids ∧ bookPositive (onMsg m ev).state.asks := by
  by_cases hr : m.state.ready
  · cases hpu : ev.pu with
    | some p =>
      by_cases hp : p = m.state.lastU
      · rw [onMsg_some_ok m ev p hr hpu hp]
        exact applyEvent_pos m ev hb ha hev
      · rw [onMsg_some_gap m ev p hr hpu hp]
        rcases triggerResync_books m with ⟨e1, e2⟩
        rw [e1, e2]; exact ⟨hb, ha⟩
    | none =>
      by_cases h1 : ev.finalU < m.state.lastU + 1
      · rw [onMsg_none_stale m ev hr hpu h1]; exact ⟨hb, ha⟩
      · by_cases h2 : ev.firstU > m.state.lastU + 1
        · rw [onMsg_none_gap m ev hr hpu h1 h2]
          rcases triggerResync_books m with ⟨e1, e2⟩
          rw [e1, e2]; exact ⟨hb, ha⟩
        · rw [onMsg_none_ok m ev hr hpu h1 h2]
          exact applyEvent_pos m ev hb ha hev
  · rw [onMsg_not_ready m ev (Bool.of_not_eq_true hr)]
    exact ⟨hb, ha⟩

theorem catchupStep_pos (s : CatchupState) (ev : DiffEvent) (c : CatchupState)
    (hb : bookPositive s.bids) (ha : bookPositive s.asks)
    (hev : eventQtysNonneg ev) (hok : catchupStep s ev = Except.ok c) :
    bookPositive c.bids ∧ bookPositive c.asks := by
  cases hpu : ev.pu with
  | some p =>
    by_cases hp : p = s.appliedU
    · rw [catchupStep_some_ok s ev p hpu hp] at hok
      rcases Except.ok.inj hok with rfl
      exact ⟨applySide_pos ev.b s.bids hb hev.1, applySide_pos ev.a s.asks ha hev.2⟩
    · rw [catchupStep_some_gap s ev p hpu hp] at hok
      cases hok
  | none =>
    by_cases h1 : ev.finalU < s.appliedU + 1
    · rw [catchupStep_none_stale s ev hpu h1] at hok
      rcases Except.ok.inj hok with rfl
      exact ⟨hb, ha⟩
    · by_cases h2 : ev.firstU > s.appliedU + 1
      · rw [catchupStep_none_gap s ev hpu h1 h2] at hok
        cases hok
      · rw [catchupStep_none_ok s ev hpu h1 h2] at hok
        rcases Except.ok.inj hok with rfl
        exact ⟨applySide_pos ev.b s.bids hb hev.1, applySide_pos ev.a s.asks ha hev.2⟩

theorem applyCatchup_pos (evs : List DiffEvent) (s : CatchupState) (c : CatchupState)
    (hb : bookPositive s.bids) (ha : bookPositive s.asks)
    (hevs : ∀ ev ∈ evs, eventQtysNonneg ev)
    (hok : applyCatchup s evs = Except.ok c) :
    bookPositive c.bids ∧ bookPositive c.asks := by
  induction evs generalizing s with
  | nil =>
    rcases Except.ok.inj hok with rfl
    exact ⟨hb, ha⟩
  | cons ev rest ih =>
    unfold applyCatchup at hok
    cases hstep : catchupStep s ev with
    | error e => rw [hstep] at hok; cases hok
    | ok s1 =>
      rw [hstep] at hok
      rcases catchupStep_pos s ev s1 hb ha (hevs ev (List.mem_cons_self ev rest)) hstep with ⟨hb1, ha1⟩
      exact ih s1 hb1 ha1 (fun e he => hevs e (List.mem_cons_of_mem _ he)) hok

theorem findBridgeSuffix_sublist (lid : ℤ) (buf suf : List DiffEvent)
    (h : findBridgeSuffix lid buf = some suf) :
    ∃ pre, buf = pre ++ suf ∧ (∀ e ∈ pre, straddles lid e = false) ∧
      ∃ ev rest, suf = ev :: rest ∧ straddles lid ev = true := by
  induction buf with
  | nil => cases h
  | cons ev rest ih =>
    unfold findBridgeSuffix at h
    by_cases hs : straddles lid ev
    · simp only [hs, if_true, Option.some.injEq] at h
      refine ⟨[], by simp [h], ?_, ev, rest, h.symm, hs⟩
      intro e he
      cases he
    · simp only [hs, if_false] at h
      rcases ih h with ⟨pre, heq, hpre, hhead⟩
      refine ⟨ev :: pre, by simp [heq], ?_, hhead⟩
      intro e he
      rcases List.mem_cons.mp he with rfl | hmem
      · exact Bool.of_not_eq_true hs
      · exact hpre e hmem

theorem syncAttempt_pos (m : MaintainerState) (snap : SnapshotMsg)
    (hb : ∀ e ∈ snap.bids, 0 < e.2) (ha : ∀ e ∈ snap.asks, 0 < e.2)
    (hbuf : ∀ ev ∈ m.buf, eventQtysNonneg ev) :
    bookPositive (syncAttempt m snap).state.bids ∧
      bookPositive (syncAttempt m snap).state.asks := by
  have hsb : bookPositive (snapshotBook snap.bids) := snapshotBook_pos snap.bids hb
  have hsa : bookPositive (snapshotBook snap.asks) := snapshotBook_pos snap.asks ha
  unfold syncAttempt
  cases hdrain : drainBufferAfterSnapshot (initFromSnapshot m snap).state.bids
      (initFromSnapshot m snap).state.asks snap.lastUpdateId (initFromSnapshot m snap).buf with
  | error e =>
    simp only [hdrain]
    exact ⟨hsb, hsa⟩
  | ok c =>
    simp only [hdrain]
    unfold drainBufferAfterSnapshot at hdrain
    cases hfind : findBridgeSuffix snap.lastUpdateId (initFromSnapshot m snap).buf with
    | none => rw [hfind] at hdrain; cases hdrain
    | some suf =>
      rw [hfind] at hdrain
      have hsufbuf : ∀ ev ∈ suf, eventQtysNonneg ev := by
        rcases findBridgeSuffix_sublist _ _ _ hfind with ⟨pre, heq, -, -⟩
        intro ev hev
        have : ev ∈ (initFromSnapshot m snap).buf := by
          rw [heq]; exact List.mem_append_right pre hev
        exact hbuf ev this
      exact applyCatchup_pos suf _ c hsb hsa hsufbuf hdrain

/-- C3 — concrete witness data: a small snapshot, buffered bridge event
and steady-state events with positive/non-negative quantities. -/
def cexSnap : SnapshotMsg :=
  { lastUpdateId := 100
    bids := [((100:ℚ), (1:ℚ))]
    asks := [((101:ℚ), (1:ℚ))] }

def cexBridgeEv : DiffEvent :=
  { firstU := 95
    finalU := 101
    pu := none
    b := [((100:ℚ), (2:ℚ)), ((99:ℚ), (1:ℚ))]
    a := [((101:ℚ), (0:ℚ))] }

def cexNextEv : DiffEvent :=
  { firstU := 102
    finalU := 105
    pu := none
    b := [((99:ℚ), (0:ℚ))]
    a := [((102:ℚ), (3:ℚ))] }

def cexM0 : MaintainerState :=
  { state := { bids := [], asks := [], lastUpdateId := 0, lastU := 0, ready := false }
    buf := [cexBridgeEv, cexNextEv]
    resyncing := true }

/-- C3: for every reachable ready state — any snapshot initialization
(`_sync_loop`), buffer catch-up (`_drain_buffer_after_snapshot`) and then
any sequence of steady-state diff events handled by `_on_msg` — no price
level of the bids or asks map has quantity ≤ 0, given that snapshot rows
carry positive quantities and diff deltas carry non-negative quantities
(a zero delta deletes the level, a positive one upserts it). -/
theorem ready_books_positive (m : MaintainerState) (snap : SnapshotMsg) (evs : List DiffEvent)
    (hb : ∀ e ∈ snap.bids, 0 < e.2) (ha : ∀ e ∈ snap.asks, 0 < e.2)
    (hbuf : ∀ ev ∈ m.buf, eventQtysNonneg ev)
    (hevs : ∀ ev ∈ evs, eventQtysNonneg ev) :
    bookPositive ((evs.foldl onMsg (syncAttempt m snap)).state.bids) ∧
      bookPositive ((evs.foldl onMsg (syncAttempt m snap)).state.asks) := by
  have key : ∀ (l : List DiffEvent) (st : MaintainerState), (∀ ev ∈ l, eventQtysNonneg ev) →
      bookPositive st.state.bids → bookPositive st.state.asks →
      bookPositive ((l.foldl onMsg st).state.bids) ∧
        bookPositive ((l.foldl onMsg st).state.asks) := by
    intro l
    induction l with
    | nil => intro st _ h1 h2; exact ⟨h1, h2⟩
    | cons ev rest ih =>
      intro st hl h1 h2
      simp only [List.foldl_cons]
      rcases onMsg_pos st ev h1 h2 (hl ev (List.mem_cons_self ev rest)) with ⟨h1a, h2a⟩
      exact ih (onMsg st ev) (fun e he => hl e (List.mem_cons_of_mem _ he)) h1a h2a
  rcases syncAttempt_pos m snap hb ha hbuf with ⟨h1, h2⟩
  exact key evs (syncAttempt m snap) hevs h1 h2

/-- C3 witness: the invariant evaluated on the concrete resync scenario
followed by one steady-state event. -/
theorem ready_books_positive_witness :
    bookPositive (([cexNextEv].foldl onMsg (syncAttempt cexM0 cexSnap)).state.bids) ∧
      bookPositive (([cexNextEv].foldl onMsg (syncAttempt cexM0 cexSnap)).state.asks) :=
  ready_books_positive cexM0 cexSnap [cexNextEv] (by decide) (by decide) (by decide) (by decide)

/-- C1: in the READY steady state, an arriving diff event that violates
the continuity condition against `lastAppliedSeq` — `prevFinalUpdateSeq`
differing from `last_u` when the venue provides it, else
`firstUpdateSeq > last_u + 1` — makes `_on_msg` transition the replica to
`ready = false` and apply none of the event's deltas: bids, asks and
`last_u` are all left unchanged (the handler runs under the instance
lock, so no intermediate partially-applied snapshot is observable). -/
theorem onMsg_gap_resync_unchanged (m : MaintainerState) (ev : DiffEvent)
    (hready : m.state.ready = true) (hrs : m.resyncing = false)
    (hwf : ev.firstU ≤ ev.finalU)
    (hviol : continuityViolation ev m.state.lastU = true) :
    (onMsg m ev).state.ready = false ∧
    (onMsg m ev).state.bids = m.state.bids ∧
    (onMsg m ev).state.asks = m.state.asks ∧
    (onMsg m ev).state.lastU = m.state.lastU := by
  cases hpu : ev.pu with
  | some p =>
    have hp : p ≠ m.state.lastU := by
      simpa [continuityViolation, hpu] using hviol
    simp [onMsg, hready, hpu, hp, triggerResync, hrs]
  | none =>
    have hU : m.state.lastU + 1 < ev.firstU := by
      simpa [continuityViolation, hpu] using hviol
    have hu : ¬ (ev.finalU < m.state.lastU + 1) := by omega
    simp [onMsg, hready, hpu, hu, hU, triggerResync, hrs]

/-- C1 witness data: a READY replica at `last_u = 105`. -/
def cexReady : MaintainerState :=
  { state :=
      { bids := [((100:ℚ), (1:ℚ))]
        asks := [((101:ℚ), (1:ℚ))]
        lastUpdateId := 100
        lastU := 105
        ready := true }
    buf := []
    resyncing := false }

/-- C1 witness data: a gapped diff (`firstUpdateSeq = 110` while
`lastAppliedSeq = 105`). -/
def cexGapEv : DiffEvent :=
  { firstU := 110
    finalU := 112
    pu := none
    b := [((100:ℚ), (5:ℚ))]
    a := [] }

/-- C1 witness: the end-to-end gap scenario of the spec. -/
theorem onMsg_gap_resync_unchanged_witness :
    (onMsg cexReady cexGapEv).state.ready = false ∧
    (onMsg cexReady cexGapEv).state.bids = cexReady.state.bids ∧
    (onMsg cexReady cexGapEv).state.asks = cexReady.state.asks ∧
    (onMsg cexReady cexGapEv).state.lastU = cexReady.state.lastU :=
  onMsg_gap_resync_unchanged cexReady cexGapEv rfl rfl (by decide) (by decide)

theorem initFromSnapshot_buf (m : MaintainerState) (snap : SnapshotMsg) :
    (initFromSnapshot m snap).buf = m.buf := rfl

theorem initFromSnapshot_bids (m : MaintainerState) (snap : SnapshotMsg) :
    (initFromSnapshot m snap).state.bids = snapshotBook snap.bids := rfl

theorem initFromSnapshot_asks (m : MaintainerState) (snap : SnapshotMsg) :
    (initFromSnapshot m snap).state.asks = snapshotBook snap.asks := rfl

/-- If every event of the suffix passes the catch-up re-validation in
turn, the whole suffix is applied and the final `applied_u` is the
`finalUpdateSeq` of the last event. -/
theorem applyCatchup_chain (evs : List DiffEvent) (s : CatchupState)
    (h : chainOk s.appliedU evs = true) :
    ∃ c, applyCatchup s evs = Except.ok c ∧ c.appliedU = lastFinal s.appliedU evs := by
  induction evs generalizing s with
  | nil => exact ⟨s, rfl, rfl⟩
  | cons ev rest ih =>
    cases hpu : ev.pu with
    | some p =>
      rw [chainOk, hpu, Bool.and_eq_true, decide_eq_true_eq] at h
      obtain ⟨hp, hrest⟩ := h
      have hstep := catchupStep_some_ok s ev p hpu hp
      set s1 : CatchupState :=
        { bids := applySide ev.b s.bids, asks := applySide ev.a s.asks,
          appliedU := ev.finalU } with hs1
      obtain ⟨c, hc, hcu⟩ := ih s1 (by rw [hs1]; exact hrest)
      refine ⟨c, ?_, ?_⟩
      · unfold applyCatchup
        rw [hstep]
        exact hc
      · rw [hcu, hs1]
        rfl
    | none =>
      rw [chainOk, hpu, Bool.and_eq_true, Bool.and_eq_true,
        decide_eq_true_eq, decide_eq_true_eq] at h
      obtain ⟨⟨h1, h2⟩, hrest⟩ := h
      have hstep := catchupStep_none_ok s ev hpu (by omega) (by omega)
      set s1 : CatchupState :=
        { bids := applySide ev.b s.bids, asks := applySide ev.a s.asks,
          appliedU := ev.finalU } with hs1
      obtain ⟨c, hc, hcu⟩ := ih s1 (by rw [hs1]; exact hrest)
      refine ⟨c, ?_, ?_⟩
      · unfold applyCatchup
        rw [hstep]
        exact hc
      · rw [hcu, hs1]
        rfl

/-- C2: the resync catch-up of `_drain_buffer_after_snapshot` /
`_sync_loop`: (i) when no buffered event straddles `lastSnapshotSeq + 1`
the attempt raises and `ready` is left unchanged (not set); (ii) the
bridge is the earliest straddling buffered event, and it plus every
subsequent buffered event is applied in arrival order: when the chain
re-validates, the loop succeeds, the replica becomes ready and
`lastAppliedSeq` equals the `finalUpdateSeq` of the last applied event;
(iii) the end-to-end scenario — snapshot `lastUpdateId = 100`, buffered
diffs `[95–101]` and `[102–105]` — bridges, leaves the book exactly
reflecting both events' deltas, and ends with `lastAppliedSeq = 105`. -/
theorem catchup_bridge_spec (m : MaintainerState) (snap : SnapshotMsg) :
    (findBridgeSuffix snap.lastUpdateId m.buf = none →
       (syncAttempt m snap).state.ready = m.state.ready) ∧
    (∀ suf, findBridgeSuffix snap.lastUpdateId m.buf = some suf →
       (∃ pre, m.buf = pre ++ suf ∧ (∀ e ∈ pre, straddles snap.lastUpdateId e = false) ∧
          ∃ ev rest, suf = ev :: rest ∧ straddles snap.lastUpdateId ev = true) ∧
       (chainOk snap.lastUpdateId suf = true →
          (syncAttempt m snap).state.ready = true ∧
          (syncAttempt m snap).state.lastU = lastFinal snap.lastUpdateId suf)) ∧
    ((syncAttempt cexM0 cexSnap).state.ready = true ∧
     (syncAttempt cexM0 cexSnap).state.lastU = 105 ∧
     bookLookup 100 (syncAttempt cexM0 cexSnap).state.bids = some 2 ∧
     bookLookup 99 (syncAttempt cexM0 cexSnap).state.bids = none ∧
     bookLookup 101 (syncAttempt cexM0 cexSnap).state.asks = none ∧
     bookLookup 102 (syncAttempt cexM0 cexSnap).state.asks = some 3) := by
  refine ⟨?_, ?_, by decide⟩
  · intro hnone
    simp only [syncAttempt, drainBufferAfterSnapshot, initFromSnapshot_buf, hnone]
    rfl
  · intro suf hfind
    refine ⟨findBridgeSuffix_sublist snap.lastUpdateId m.buf suf
      (by rw [← initFromSnapshot_buf m snap]; exact hfind), ?_⟩
    intro hchain
    obtain ⟨c, hc, hcu⟩ := applyCatchup_chain suf
      { bids := snapshotBook snap.bids, asks := snapshotBook snap.asks,
        appliedU := snap.lastUpdateId } hchain
    simp only [syncAttempt, drainBufferAfterSnapshot, initFromSnapshot_buf, hfind,
      initFromSnapshot_bids, initFromSnapshot_asks, hc]
    exact ⟨trivial, hcu⟩

/-- C2 witness: the main theorem applied to the concrete end-to-end
resync scenario. -/
theorem catchup_bridge_spec_witness :
    (syncAttempt cexM0 cexSnap).state.ready = true ∧
    (syncAttempt cexM0 cexSnap).state.lastU = lastFinal 100 [cexBridgeEv, cexNextEv] := by
  have h := (catchup_bridge_spec cexM0 cexSnap).2.1 [cexBridgeEv, cexNextEv] (by decide)
  exact h.2 (by decide)

/-! Embedding of `src/arbitrage/strategy/logic.py`: spread computation,
the two candidate collectors, and the unified exit decision. -/

inductive TradeSide
  | pos
  | neg
deriving DecidableEq

/-- `_spread_bps(quote_px, hedge_px)`. -/
def spreadBps (quotePx hedgePx : ℚ) : ℚ :=
  (quotePx - hedgePx) / hedgePx * 10000

/-- One candidate row (`dict(side=..., level=..., px_quote=...,
px_hedge=..., q_qty=..., h_qty=..., edge_bps=...)`). -/
structure CandRow where
  side : TradeSide
  level : ℕ
  pxQuote : ℚ
  pxHedge : ℚ
  qQty : ℚ
  hQty : ℚ
  edgeBps : ℚ
deriving DecidableEq

/-- `_get_candidate` (logic.py lines 124–181): the level-1 candidate
engine called by `try_enter_unified`. The POS row takes `h_asks[0]` and
`q_asks[0]` with the levels' resting quantities; the NEG row (only when
positive-carry is not forced) takes `h_bids[0]` and `q_bids[0]`. -/
def getCandidate (qBids qAsks hBids hAsks : List (ℚ × ℚ)) (minBp : ℚ)
    (onlyPositiveCarry : Bool) : List CandRow × List CandRow :=
  match qBids, qAsks, hBids, hAsks with
  | qb0 :: _, qa0 :: _, hb0 :: _, ha0 :: _ =>
    let aaSpread := spreadBps qa0.1 ha0.1
    let rowsPos : List CandRow :=
      if minBp ≤ aaSpread then
        [{ side := TradeSide.pos, level := 1, pxQuote := qa0.1, pxHedge := ha0.1,
           qQty := qa0.2, hQty := ha0.2, edgeBps := aaSpread }]
      else []
    let rowsNeg : List CandRow :=
      if onlyPositiveCarry then []
      else
        let bbSpread := spreadBps qb0.1 hb0.1
        if bbSpread ≤ -minBp then
          [{ side := TradeSide.neg, level := 1, pxQuote := qb0.1, pxHedge := hb0.1,
             qQty := qb0.2, hQty := hb0.2, edgeBps := bbSpread }]
        else []
    (rowsPos, rowsNeg)
  | _, _, _, _ => ([], [])

/-- `_collect_unified_candidates` (logic.py lines 58–122): the
multi-level unified collector. `qTarget`/`hTarget` are the legs'
notional-derived target quantities (`qty_from_usd(V_USD)`). Per level a
row is kept only when the edge clears the threshold and both leg
notionals meet the floor; quantities are the min of target and the
level's resting quantity. -/
def collectUnifiedCandidates (qTarget hTarget : ℚ)
    (qBids qAsks hBids hAsks : List (ℚ × ℚ))
    (maxLevels : ℕ) (minBp minVusd : ℚ) (onlyPositiveCarry : Bool) :
    List CandRow × List CandRow :=
  let L := min maxLevels (min qBids.length (min qAsks.length (min hBids.length hAsks.length)))
  let rowsPos := (List.range L).filterMap (fun i =>
    let pxH := (hAsks.getD i (0, 0)).1
    let pxQ := (qBids.getD i (0, 0)).1
    let edge := spreadBps pxQ pxH
    let hQty := min hTarget (hAsks.getD i (0, 0)).2
    let qQty := min qTarget (qBids.getD i (0, 0)).2
    if minBp ≤ edge ∧ minVusd ≤ hQty * pxH ∧ minVusd ≤ qQty * pxQ then
      some { side := TradeSide.pos, level := i + 1, pxQuote := pxQ, pxHedge := pxH,
             qQty := qQty, hQty := hQty, edgeBps := edge }
    else none)
  let rowsNeg :=
    if onlyPositiveCarry then []
    else (List.range L).filterMap (fun i =>
      let pxH := (hBids.getD i (0, 0)).1
      let pxQ := (qAsks.getD i (0, 0)).1
      let edge := spreadBps pxQ pxH
      let hQty := min hTarget (hBids.getD i (0, 0)).2
      let qQty := min qTarget (qAsks.getD i (0, 0)).2
      if edge ≤ -minBp ∧ minVusd ≤ hQty * pxH ∧ minVusd ≤ qQty * pxQ then
        some { side := TradeSide.neg, level := i + 1, pxQuote := pxQ, pxHedge := pxH,
               qQty := qQty, hQty := hQty, edgeBps := edge }
      else none)
  (rowsPos, rowsNeg)

/-- C4 (code bug): `_get_candidate`, the candidate engine used by
`try_enter_unified`, performs no minimum-notional check whatsoever —
its own docstring documents a `min_vusd` minimum-notional parameter
that the implementation neither takes nor uses. On this concrete book
(tiny resting quantity at the top level) it returns a forward candidate
whose per-leg notionals are about 0.1 USD, far below a 100-USD floor,
while the edge threshold (10 bp) is satisfied. -/
theorem getCandidate_notional_floor_violated :
    getCandidate [(100, 1)] [(101, 1/1000)] [(99, 1)] [(100, 1/1000)] 10 true
      = ([{ side := TradeSide.pos, level := 1, pxQuote := 101, pxHedge := 100,
            qQty := 1/1000, hQty := 1/1000, edgeBps := 100 }], []) ∧
    ((1 : ℚ)/1000) * 101 < 100 ∧ ((1 : ℚ)/1000) * 100 < 100 := by
  have h1 : spreadBps 101 100 = 100 := by norm_num [spreadBps]
  refine ⟨?_, by norm_num, by norm_num⟩
  simp only [getCandidate, h1]
  norm_num

/-- C5 counterexample: on this book the best quote bid is 100 and the
best quote ask is 102; `_get_candidate` prices the forward candidate's
quote sale at 102 — the quote **ask**, not the quote bid — and computes
its edge from that ask (200 bp), not `(quoteBid − hedgeAsk)/hedgeAsk ×
10⁴ = 0`. So the claim's pricing law is false for the engine used by
`try_enter_unified`. -/
theorem getCandidate_forward_uses_quote_ask :
    getCandidate [(100, 5)] [(102, 5)] [(99, 5)] [(100, 5)] 10 true
      = ([{ side := TradeSide.pos, level := 1, pxQuote := 102, pxHedge := 100,
            qQty := 5, hQty := 5, edgeBps := 200 }], []) ∧
    (102 : ℚ) ≠ 100 ∧ (200 : ℚ) ≠ spreadBps 100 100 := by
  have h2 : spreadBps 102 100 = 200 := by norm_num [spreadBps]
  refine ⟨?_, by norm_num, ?_⟩
  · simp only [getCandidate, h2]
    norm_num
  · have h0 : spreadBps 100 100 = 0 := by norm_num [spreadBps]
    rw [h0]
    norm_num

/-- C5 (amended): the multi-level collector `_collect_unified_candidates`
does satisfy the claimed forward pricing law — hedge bought at
`h_asks[i]`, quote sold at `q_bids[i]`, edge `(quoteBid −
hedgeAsk)/hedgeAsk × 10⁴`, and each leg quantity the min of the
notional-derived target and the level's resting quantity — while the
level-1 `_get_candidate` actually used by `try_enter_unified` prices the
forward quote leg at the best quote **ask** and takes that level's full
resting quantity with no target cap. -/
theorem collectUnified_forward_pricing
    (qTarget hTarget minBp minVusd : ℚ) (maxLevels : ℕ)
    (qBids qAsks hBids hAsks : List (ℚ × ℚ)) (opc : Bool) :
    (∀ r ∈ (collectUnifiedCandidates qTarget hTarget qBids qAsks hBids hAsks
        maxLevels minBp minVusd opc).1,
      ∃ i, r.level = i + 1 ∧ i < qBids.length ∧ i < hAsks.length ∧
        r.pxHedge = (hAsks.getD i (0, 0)).1 ∧
        r.pxQuote = (qBids.getD i (0, 0)).1 ∧
        r.edgeBps = spreadBps r.pxQuote r.pxHedge ∧
        r.qQty = min qTarget (qBids.getD i (0, 0)).2 ∧
        r.hQty = min hTarget (hAsks.getD i (0, 0)).2 ∧
        minBp ≤ r.edgeBps ∧ minVusd ≤ r.hQty * r.pxHedge ∧ minVusd ≤ r.qQty * r.pxQuote) ∧
    (∀ qb0 qa0 hb0 ha0 : ℚ × ℚ, ∀ qbs qas hbs has : List (ℚ × ℚ),
      (getCandidate (qb0 :: qbs) (qa0 :: qas) (hb0 :: hbs) (ha0 :: has) minBp true).1 =
        if minBp ≤ spreadBps qa0.1 ha0.1 then
          [{ side := TradeSide.pos, level := 1, pxQuote := qa0.1, pxHedge := ha0.1,
             qQty := qa0.2, hQty := ha0.2, edgeBps := spreadBps qa0.1 ha0.1 }]
        else []) := by
  constructor
  · intro r hr
    simp only [collectUnifiedCandidates, List.mem_filterMap, List.mem_range] at hr
    obtain ⟨i, hiL, hcond⟩ := hr
    by_cases hc : minBp ≤ spreadBps (qBids.getD i (0, 0)).1 (hAsks.getD i (0, 0)).1 ∧
        minVusd ≤ min hTarget (hAsks.getD i (0, 0)).2 * (hAsks.getD i (0, 0)).1 ∧
        minVusd ≤ min qTarget (qBids.getD i (0, 0)).2 * (qBids.getD i (0, 0)).1
    · rw [if_pos hc] at hcond
      obtain rfl := Option.some.inj hcond
      exact ⟨i, rfl, by omega, by omega, rfl, rfl, rfl, rfl, rfl, hc.1, hc.2.1, hc.2.2⟩
    · rw [if_neg hc] at hcond
      cases hcond
  · intro qb0 qa0 hb0 ha0 qbs qas hbs has
    rfl

/-- C5 amended-claim witness data: a book and targets on which the
unified collector keeps exactly one forward row. -/
def cexUniRow : CandRow :=
  { side := TradeSide.pos, level := 1, pxQuote := 102, pxHedge := 100,
    qQty := 1, hQty := 1, edgeBps := 200 }

/-- C5 witness: the pricing law evaluated on a concrete forward row of
the unified collector. -/
theorem collectUnified_forward_pricing_witness :
    ∃ i, cexUniRow.level = i + 1 ∧ i < [((102 : ℚ), (5 : ℚ))].length ∧
      i < [((100 : ℚ), (5 : ℚ))].length ∧
      cexUniRow.pxHedge = ([((100 : ℚ), (5 : ℚ))].getD i (0, 0)).1 ∧
      cexUniRow.pxQuote = ([((102 : ℚ), (5 : ℚ))].getD i (0, 0)).1 ∧
      cexUniRow.edgeBps = spreadBps cexUniRow.pxQuote cexUniRow.pxHedge ∧
      cexUniRow.qQty = min 1 ([((102 : ℚ), (5 : ℚ))].getD i (0, 0)).2 ∧
      cexUniRow.hQty = min 1 ([((100 : ℚ), (5 : ℚ))].getD i (0, 0)).2 ∧
      (10 : ℚ) ≤ cexUniRow.edgeBps ∧ (50 : ℚ) ≤ cexUniRow.hQty * cexUniRow.pxHedge ∧
      (50 : ℚ) ≤ cexUniRow.qQty * cexUniRow.pxQuote := by
  have h2 : spreadBps 102 100 = 200 := by norm_num [spreadBps]
  have hlist : (collectUnifiedCandidates 1 1 [((102 : ℚ), (5 : ℚ))] [((103 : ℚ), (5 : ℚ))]
      [((99 : ℚ), (5 : ℚ))] [((100 : ℚ), (5 : ℚ))] 10 10 50 true).1 = [cexUniRow] := by
    simp only [collectUnifiedCandidates, cexUniRow, List.length_singleton, h2]
    norm_num [h2, List.range_succ, List.range_zero, List.filterMap_cons, List.getD,
      List.getElem?_cons_zero, min_def]
  exact (collectUnified_forward_pricing 1 1 10 50 10 [((102 : ℚ), (5 : ℚ))]
    [((103 : ℚ), (5 : ℚ))] [((99 : ℚ), (5 : ℚ))] [((100 : ℚ), (5 : ℚ))] true).1
    cexUniRow (by rw [hlist]; exact List.mem_singleton_self cexUniRow)

/-- The exit triggers of `try_exit_unified`, in the order the code
tests them. -/
inductive ExitTrigger
  | profitTake
  | stopLoss
  | maxHold
deriving DecidableEq

/-- The decision core of `try_exit_unified` (logic.py lines 521–549):
POS exits on `spread ≤ EXIT_BPS` (profit-take) else `spread ≥ STOP_BPS`
(stop-loss); NEG symmetrically with negated thresholds; when no spread
trigger fired, `held ≥ MAX_HOLD_SEC` forces an unwind. -/
def tryExitDecision (side : TradeSide) (spBps heldSec exitBps stopBps maxHoldSec : ℚ) :
    Option ExitTrigger :=
  let spreadTrigger : Option ExitTrigger :=
    match side with
    | TradeSide.pos =>
      if spBps ≤ exitBps then some ExitTrigger.profitTake
      else if stopBps ≤ spBps then some ExitTrigger.stopLoss
      else none
    | TradeSide.neg =>
      if -exitBps ≤ spBps then some ExitTrigger.profitTake
      else if spBps ≤ -stopBps then some ExitTrigger.stopLoss
      else none
  match spreadTrigger with
  | some t => some t
  | none => if maxHoldSec ≤ heldSec then some ExitTrigger.maxHold else none

/-- C8 counterexample: with side = POS, exit = 2 bp, stop = 100 bp,
elapsed = 10 s, maxHold = 1800 s, a spread of 1.5 bp **does** fire the
profit-take trigger (1.5 ≤ 2), and a spread of 2.5 bp fires nothing —
the exact opposite of the claim's example (which also contradicts the
spec's own rule "POS: spread ≤ exitThreshold → profit-take"). -/
theorem tryExit_spec_example_false :
    tryExitDecision TradeSide.pos (3/2) 10 2 100 1800 = some ExitTrigger.profitTake ∧
    some ExitTrigger.profitTake ≠ (none : Option ExitTrigger) ∧
    tryExitDecision TradeSide.pos (5/2) 10 2 100 1800 = none := by
  refine ⟨by norm_num [tryExitDecision], by decide, by norm_num [tryExitDecision]⟩

/-- C8 (amended): the exit decision is the deterministic function of
(side, spread, elapsed, thresholds) given below, and on the claim's
concrete inputs a 1.5 bp spread yields the profit-take trigger while a
2.5 bp spread yields no trigger. -/
theorem tryExit_decision_amended :
    (∀ sp held exitB stopB maxH : ℚ,
      tryExitDecision TradeSide.pos sp held exitB stopB maxH =
        if sp ≤ exitB then some ExitTrigger.profitTake
        else if stopB ≤ sp then some ExitTrigger.stopLoss
        else if maxH ≤ held then some ExitTrigger.maxHold
        else none) ∧
    (∀ sp held exitB stopB maxH : ℚ,
      tryExitDecision TradeSide.neg sp held exitB stopB maxH =
        if -exitB ≤ sp then some ExitTrigger.profitTake
        else if sp ≤ -stopB then some ExitTrigger.stopLoss
        else if maxH ≤ held then some ExitTrigger.maxHold
        else none) ∧
    tryExitDecision TradeSide.pos (3/2) 10 2 100 1800 = some ExitTrigger.profitTake ∧
    tryExitDecision TradeSide.pos (5/2) 10 2 100 1800 = none := by
  refine ⟨?_, ?_, by norm_num [tryExitDecision], by norm_num [tryExitDecision]⟩
  · intro sp held exitB stopB maxH
    unfold tryExitDecision
    by_cases h1 : sp ≤ exitB
    · simp [h1]
    · by_cases h2 : stopB ≤ sp
      · simp [h1, h2]
      · by_cases h3 : maxH ≤ held <;> simp [h1, h2, h3]
  · intro sp held exitB stopB maxH
    unfold tryExitDecision
    by_cases h1 : -exitB ≤ sp
    · simp [h1]
    · by_cases h2 : sp ≤ -stopB
      · simp [h1, h2]
      · by_cases h3 : maxH ≤ held <;> simp [h1, h2, h3]

/-! Embedding of `_hybrid_maker_then_taker` (logic.py lines 183–345), the
event-driven maker-then-taker executor. The exchange's responses are
inputs: `placeResult` is the maker order id returned by
`place_limit_maker` (`none` for a failed placement), `fillData` the
payload delivered by the fill registry (`none` on timeout), and
`statusQuery` the `executedQty` from the `get_order_status` reconciliation
query (`none` when that query raises). The venue calls the executor makes
are collected as an action list. -/

inductive OrderSide
  | buy
  | sell
deriving DecidableEq

structure FillData where
  lastQty : ℚ
  cumQty : ℚ
deriving DecidableEq

inductive HybAction
  | placeMaker (side : OrderSide) (qty px : ℚ)
  | cancelOrder (oid : ℕ)
  | placeTaker (side : OrderSide) (qty : ℚ) (reduceOnly : Bool)
deriving DecidableEq

/-- The quantities of the taker market orders in an action list. -/
def placedTakerQtys (acts : List HybAction) : List ℚ :=
  acts.filterMap (fun a =>
    match a with
    | HybAction.placeTaker _ q _ => some q
    | _ => none)

/-- The maker fill quantity the code acts on: on timeout the status-query
result (0 when the query raised); on a fill notification
`max(lastQty, cumQty)` reconciled against the status query
(`filled_qty = max(filled_qty, executed)`). -/
def effectiveFilled (fillData : Option FillData) (statusQuery : Option ℚ) : ℚ :=
  match fillData with
  | none => statusQuery.getD 0
  | some fd =>
    let f0 := max fd.lastQty fd.cumQty
    match statusQuery with
    | some ex => max f0 ex
    | none => f0

/-- The executor's behavior once the maker order is placed and registered
(the code from the `register` await onward): on timeout, query status,
cancel, and hedge the scaled quantity only when a nonzero fill was
confirmed; on a fill event, cancel the remainder, reconcile the filled
quantity, and hedge `taker_qty * filled/max(1e-12, maker_qty)` with a
single market order, never reduce-only. -/
def hybridAfterRegister (side : TradeSide) (makerIsHedge : Bool) (makerSide : OrderSide)
    (px makerQty takerQty : ℚ) (oid : ℕ) (fillData : Option FillData)
    (statusQuery : Option ℚ) (takerPlaceOk : Bool) : Bool × List HybAction :=
  let takerSide :=
    if !makerIsHedge then
      (if side = TradeSide.pos then OrderSide.sell else OrderSide.buy)
    else
      (if side = TradeSide.pos then OrderSide.buy else OrderSide.sell)
  match fillData with
  | none =>
    let filledTimeout := statusQuery.getD 0
    if 0 < filledTimeout then
      let scale := filledTimeout / max (1/1000000000000) makerQty
      (takerPlaceOk,
        [HybAction.placeMaker makerSide makerQty px, HybAction.cancelOrder oid,
         HybAction.placeTaker takerSide (takerQty * scale) false])
    else
      (false, [HybAction.placeMaker makerSide makerQty px, HybAction.cancelOrder oid])
  | some fd =>
    let f0 := max fd.lastQty fd.cumQty
    let filled :=
      match statusQuery with
      | some ex => max f0 ex
      | none => f0
    if filled ≤ 0 then
      (false, [HybAction.placeMaker makerSide makerQty px, HybAction.cancelOrder oid])
    else
      let scale := filled / max (1/1000000000000) makerQty
      (takerPlaceOk,
        [HybAction.placeMaker makerSide makerQty px, HybAction.cancelOrder oid,
         HybAction.placeTaker takerSide (takerQty * scale) false])

/-- `_hybrid_maker_then_taker`: pick the maker side from the trade side
and which leg makes, take the post-only price from the same-side best
level (no price → abort), place, and on a successful placement hand over
to the post-registration logic. -/
def hybridMakerThenTaker (side : TradeSide) (makerIsHedge : Bool)
    (makerQty takerQty : ℚ) (makerBids makerAsks : List (ℚ × ℚ))
    (placeResult : Option ℕ) (fillData : Option FillData)
    (statusQuery : Option ℚ) (takerPlaceOk : Bool) : Bool × List HybAction :=
  let makerSide :=
    if makerIsHedge then
      (if side = TradeSide.pos then OrderSide.buy else OrderSide.sell)
    else
      (if side = TradeSide.pos then OrderSide.sell else OrderSide.buy)
  match (if makerSide = OrderSide.buy then makerBids.head?.map Prod.fst
         else makerAsks.head?.map Prod.fst) with
  | none => (false, [])
  | some px =>
    match placeResult with
    | none => (false, [HybAction.placeMaker makerSide makerQty px])
    | some oid =>
      hybridAfterRegister side makerIsHedge makerSide px makerQty takerQty oid
        fillData statusQuery takerPlaceOk

theorem hybridAfterRegister_spec (side : TradeSide) (makerIsHedge : Bool)
    (makerSide : OrderSide) (px makerQty takerQty : ℚ) (oid : ℕ)
    (fillData : Option FillData) (statusQuery : Option ℚ) (takerPlaceOk : Bool)
    (hq : (1/1000000000000 : ℚ) ≤ makerQty) :
    (placedTakerQtys (hybridAfterRegister side makerIsHedge makerSide px makerQty takerQty
        oid fillData statusQuery takerPlaceOk).2).length ≤ 1 ∧
    (effectiveFilled fillData statusQuery ≤ 0 →
      placedTakerQtys (hybridAfterRegister side makerIsHedge makerSide px makerQty takerQty
        oid fillData statusQuery takerPlaceOk).2 = [] ∧
      HybAction.cancelOrder oid ∈ (hybridAfterRegister side makerIsHedge makerSide px makerQty
        takerQty oid fillData statusQuery takerPlaceOk).2) ∧
    (0 < effectiveFilled fillData statusQuery →
      placedTakerQtys (hybridAfterRegister side makerIsHedge makerSide px makerQty takerQty
        oid fillData statusQuery takerPlaceOk).2 =
        [effectiveFilled fillData statusQuery / makerQty * takerQty] ∧
      HybAction.cancelOrder oid ∈ (hybridAfterRegister side makerIsHedge makerSide px makerQty
        takerQty oid fillData statusQuery takerPlaceOk).2) := by
  have hmax : max ((1 : ℚ)/1000000000000) makerQty = makerQty := max_eq_right hq
  have hmax2 : ((1000000000000 : ℚ)⁻¹ ⊔ makerQty) = makerQty := by
    rw [← one_div]; exact hmax
  cases fillData with
  | none =>
    by_cases h : 0 < statusQuery.getD 0
    · simp only [hybridAfterRegister, effectiveFilled]
      rw [if_pos h]
      exact ⟨by simp [placedTakerQtys], fun hle => absurd h (not_lt.mpr hle),
        fun _ => ⟨by simp [placedTakerQtys, hmax, hmax2, mul_comm], by simp⟩⟩
    · simp only [hybridAfterRegister, effectiveFilled]
      rw [if_neg h]
      exact ⟨by simp [placedTakerQtys], fun _ => ⟨by simp [placedTakerQtys], by simp⟩,
        fun hlt => absurd hlt h⟩
  | some fd =>
    by_cases h : (match statusQuery with
        | some ex => max (max fd.lastQty fd.cumQty) ex
        | none => max fd.lastQty fd.cumQty) ≤ 0
    · simp only [hybridAfterRegister, effectiveFilled]
      rw [if_pos h]
      exact ⟨by simp [placedTakerQtys], fun _ => ⟨by simp [placedTakerQtys], by simp⟩,
        fun hlt => absurd h (not_le.mpr hlt)⟩
    · simp only [hybridAfterRegister, effectiveFilled]
      rw [if_neg h]
      exact ⟨by simp [placedTakerQtys], fun hle => absurd hle h,
        fun _ => ⟨by simp [placedTakerQtys, hmax, hmax2, mul_comm], by simp⟩⟩

/-- C6: for a registered hybrid execution (maker order placed, id `oid`),
with maker target `makerQty` above the 1e-12 guard, and confirmed fill
`filled` (from the fill notification reconciled with the status query, or
from the timeout status query): at most one taker market order is placed
per registered order id; when `filled = 0` the resting order is cancelled
and no taker order is placed; and when `filled > 0` exactly one taker
market order for `(filled / makerQty) × takerQty` is placed (exact in ℚ,
hence within rounding tolerance) after cancelling the remainder. -/
theorem hybrid_taker_scaling (side : TradeSide) (makerIsHedge : Bool)
    (makerQty takerQty : ℚ) (b0 a0 : ℚ × ℚ) (bs as' : List (ℚ × ℚ)) (oid : ℕ)
    (fillData : Option FillData) (statusQuery : Option ℚ) (takerPlaceOk : Bool)
    (hq : (1/1000000000000 : ℚ) ≤ makerQty) :
    (placedTakerQtys (hybridMakerThenTaker side makerIsHedge makerQty takerQty
        (b0 :: bs) (a0 :: as') (some oid) fillData statusQuery takerPlaceOk).2).length ≤ 1 ∧
    (effectiveFilled fillData statusQuery ≤ 0 →
      placedTakerQtys (hybridMakerThenTaker side makerIsHedge makerQty takerQty
        (b0 :: bs) (a0 :: as') (some oid) fillData statusQuery takerPlaceOk).2 = [] ∧
      HybAction.cancelOrder oid ∈ (hybridMakerThenTaker side makerIsHedge makerQty takerQty
        (b0 :: bs) (a0 :: as') (some oid) fillData statusQuery takerPlaceOk).2) ∧
    (0 < effectiveFilled fillData statusQuery →
      placedTakerQtys (hybridMakerThenTaker side makerIsHedge makerQty takerQty
        (b0 :: bs) (a0 :: as') (some oid) fillData statusQuery takerPlaceOk).2 =
        [effectiveFilled fillData statusQuery / makerQty * takerQty] ∧
      HybAction.cancelOrder oid ∈ (hybridMakerThenTaker side makerIsHedge makerQty takerQty
        (b0 :: bs) (a0 :: as') (some oid) fillData statusQuery takerPlaceOk).2) := by
  cases side <;> cases makerIsHedge <;>
    simp only [hybridMakerThenTaker, if_true, if_false, Bool.false_eq_true, List.head?_cons,
      Option.map_some, reduceIte, reduceCtorEq] <;>
    exact hybridAfterRegister_spec _ _ _ _ makerQty takerQty oid fillData statusQuery
      takerPlaceOk hq

/-- C6 witness: the spec's end-to-end scenario — a maker order for 10
units fills 4 before timeout — hedges exactly 0.4 × takerTarget (= 8 for
a 20-unit taker target) and cancels the resting order. -/
theorem hybrid_taker_scaling_witness :
    placedTakerQtys (hybridMakerThenTaker TradeSide.pos true 10 20
        [((100 : ℚ), (1 : ℚ))] [((101 : ℚ), (1 : ℚ))] (some 42)
        (some { lastQty := 4, cumQty := 4 }) (some 4) true).2 = [(8 : ℚ)] ∧
    HybAction.cancelOrder 42 ∈ (hybridMakerThenTaker TradeSide.pos true 10 20
        [((100 : ℚ), (1 : ℚ))] [((101 : ℚ), (1 : ℚ))] (some 42)
        (some { lastQty := 4, cumQty := 4 }) (some 4) true).2 := by
  have h := (hybrid_taker_scaling TradeSide.pos true 10 20 ((100 : ℚ), (1 : ℚ))
    ((101 : ℚ), (1 : ℚ)) [] [] 42 (some { lastQty := 4, cumQty := 4 }) (some 4) true
    (by norm_num)).2.2 (by norm_num [effectiveFilled])
  have he : effectiveFilled (some { lastQty := 4, cumQty := 4 }) (some 4) = 4 := by
    norm_num [effectiveFilled]
  rw [he] at h
  have hq : (4 : ℚ) / 10 * 20 = 8 := by norm_num
  rw [hq] at h
  exact h

/-! Embedding of `src/arbitrage/strategy/pending.py`: the pending-fill
registry (`PendingManager`). Waiting itself is not modelled (asyncio);
the registry state and its three mutations — the insert step of
`register`, the `on_fill` callback and the `remove` cleanup that
`register` always runs after its wait resolves — are. -/

/-- A fill payload from the user stream (`fill_data` dict). -/
structure FillMsg where
  orderId : Option ℕ
  symbol : Option String
  market : Option String
  status : String
  lastQty : ℚ
  cumQty : ℚ
deriving DecidableEq

/-- The key shapes produced by `PendingManager._make_key`:
`(market, symbol, orderId)` when both market and symbol are non-empty,
`(symbol, orderId)` when only the symbol is, else the bare order id. -/
inductive PendKey
  | full (market symbol : String) (oid : ℕ)
  | symOnly (symbol : String) (oid : ℕ)
  | bare (oid : ℕ)
deriving DecidableEq

def PendKey.orderId : PendKey → ℕ
  | PendKey.full _ _ o => o
  | PendKey.symOnly _ o => o
  | PendKey.bare o => o

/-- `PendingManager._make_key(order_id, symbol, market)`; `market or ""`
and `symbol or ""` make missing values empty strings, which are falsy.
The source also normalizes the strings (`.lower().strip()` for the
market, `.upper().strip()` for the symbol); that pure renaming is
omitted here (Lean's string case functions are not kernel-computable)
and inputs are taken as already normalized, as every caller in the repo
passes them. -/
def makeKey (oid : ℕ) (symbol market : Option String) : PendKey :=
  let mk := market.getD ""
  let sym := symbol.getD ""
  if mk ≠ "" ∧ sym ≠ "" then PendKey.full mk sym oid
  else if sym ≠ "" then PendKey.symOnly sym oid
  else PendKey.bare oid

/-- One `PendingHybridOrder` as stored in `self._orders`: its dict key,
its `order_id` attribute, and the resolved fill payload (set once by
`set_filled`, `none` while the waiter is outstanding). -/
structure PendEntry where
  key : PendKey
  orderId : ℕ
  fillData : Option FillMsg
deriving DecidableEq

abbrev Registry := List PendEntry

/-- The insert step of `PendingManager.register`: a key already present
returns `None` (no second waiter); otherwise a fresh entry is stored. -/
def registerStart (oid : ℕ) (symbol market : Option String) (st : Registry) :
    Option Unit × Registry :=
  let k := makeKey oid symbol market
  if st.any (fun e => decide (e.key = k)) then (none, st)
  else (some (), st ++ [{ key := k, orderId := oid, fillData := none }])

/-- `PendingManager.remove(order_id)`: delete every entry whose stored
`order_id` matches (run exactly once by `register` after its wait
resolves, by fill or by timeout). -/
def removeByOid (oid : ℕ) (st : Registry) : Registry :=
  st.filter (fun e => decide (e.orderId ≠ oid))

/-- `self._orders.get(k)`. -/
def findEntry (k : PendKey) (st : Registry) : Option PendEntry :=
  st.find? (fun e => decide (e.key = k))

/-- `order.set_filled(fill_data)` on the entry stored under `k`. -/
def setFilled (k : PendKey) (d : FillMsg) (st : Registry) : Registry :=
  st.map (fun e => if e.key = k then { e with fillData := some d } else e)

/-- The lookup chain of `PendingManager.on_fill`:
`orders.get(key) or orders.get(key_sym_only) or orders.get(order_id)`. -/
def lookupPending (msg : FillMsg) (marketArg : Option String) (oid : ℕ)
    (st : Registry) : Option PendEntry :=
  let market := if (marketArg.getD "") = "" then msg.market else marketArg
  let key := makeKey oid msg.symbol market
  let keySym := makeKey oid msg.symbol none
  match findEntry key st with
  | some e => some e
  | none =>
    match findEntry keySym st with
    | some e => some e
    | none => findEntry (PendKey.bare oid) st

/-- `PendingManager.on_fill(fill_data, market)`: ignore events without an
order id (`if not order_id`, so an id of 0 is also ignored); look the
registration up by composite key, symbol key, then bare id; resolve the
found waiter only when the status is PARTIALLY_FILLED or FILLED. -/
def onFill (msg : FillMsg) (marketArg : Option String) (st : Registry) : Registry :=
  match msg.orderId with
  | none => st
  | some oid =>
    if oid = 0 then st
    else
      match lookupPending msg marketArg oid st with
      | none => st
      | some e =>
        if msg.status = "PARTIALLY_FILLED" ∨ msg.status = "FILLED" then
          setFilled e.key msg st
        else st

/-- The entry `register` stores for a fresh key. -/
def freshEntry (oid : ℕ) (symbol market : Option String) : PendEntry :=
  { key := makeKey oid symbol market
    orderId := oid
    fillData := none }

theorem makeKey_orderId (oid : ℕ) (symbol market : Option String) :
    (makeKey oid symbol market).orderId = oid := by
  simp only [makeKey]
  split_ifs <;> rfl

theorem removeByOid_of_fresh (oid : ℕ) (st : Registry)
    (h : ∀ e ∈ st, e.orderId ≠ oid) : removeByOid oid st = st := by
  unfold removeByOid
  apply List.filter_eq_self.mpr
  intro e he
  exact decide_eq_true (h e he)

/-- C7: at most one outstanding wait per key — a second `register` for an
already-registered key returns `None` and leaves the registry unchanged —
and a registration whose order id is fresh is inserted by `register` and
removed from the registry exactly once by the `remove` that runs when its
wait resolves (whether by fill or by timeout): after that `remove` the
registry is exactly what it was before the registration, and running the
cleanup again changes nothing, so no registration or waiter leaks. -/
theorem pending_register_remove_spec (st : Registry) (oid : ℕ)
    (symbol market : Option String)
    (hwf : ∀ e ∈ st, e.key.orderId = e.orderId) :
    (st.any (fun e => decide (e.key = makeKey oid symbol market)) = true →
       registerStart oid symbol market st = (none, st)) ∧
    ((∀ e ∈ st, e.orderId ≠ oid) →
       (registerStart oid symbol market st).1 = some () ∧
       (registerStart oid symbol market st).2 = st ++ [freshEntry oid symbol market] ∧
       removeByOid oid (registerStart oid symbol market st).2 = st ∧
       removeByOid oid (removeByOid oid (registerStart oid symbol market st).2) = st) := by
  constructor
  · intro h
    unfold registerStart
    rw [if_pos h]
  · intro hfresh
    have hnone : st.any (fun e => decide (e.key = makeKey oid symbol market)) ≠ true := by
      intro hany
      obtain ⟨e, he, hke⟩ := List.any_eq_true.mp hany
      have hek : e.key = makeKey oid symbol market := of_decide_eq_true hke
      have : e.orderId = oid := by
        rw [← hwf e he, hek, makeKey_orderId]
      exact hfresh e he this
    have hreg : registerStart oid symbol market st =
        (some (), st ++ [freshEntry oid symbol market]) := by
      unfold registerStart
      rw [if_neg hnone]
      rfl
    have hrm : removeByOid oid (st ++ [freshEntry oid symbol market]) = st := by
      unfold removeByOid
      rw [List.filter_append]
      have h1 : st.filter (fun e => decide (e.orderId ≠ oid)) = st :=
        removeByOid_of_fresh oid st hfresh
      have h2 : ([freshEntry oid symbol market] : Registry).filter
          (fun e => decide (e.orderId ≠ oid)) = [] := by
        simp [freshEntry]
      rw [h1, h2, List.append_nil]
    refine ⟨by rw [hreg], by rw [hreg], by rw [hreg]; exact hrm, ?_⟩
    rw [hreg]
    rw [hrm]
    exact removeByOid_of_fresh oid st hfresh

/-- C7 witness: a fresh registration in an empty registry, inserted and
then cleaned up exactly once. -/
theorem pending_register_remove_spec_witness :
    (registerStart 7 (some "BTCUSDT") (some "cm") []).1 = some () ∧
    (registerStart 7 (some "BTCUSDT") (some "cm") []).2 =
      [] ++ [freshEntry 7 (some "BTCUSDT") (some "cm")] ∧
    removeByOid 7 (registerStart 7 (some "BTCUSDT") (some "cm") []).2 = [] ∧
    removeByOid 7 (removeByOid 7 (registerStart 7 (some "BTCUSDT") (some "cm") []).2) = [] := by
  exact (pending_register_remove_spec [] 7 (some "BTCUSDT") (some "cm")
    (by intro e he; cases he)).2 (by intro e he; cases he)

theorem setFilled_keys (k : PendKey) (d : FillMsg) (st : Registry) :
    (setFilled k d st).map PendEntry.key = st.map PendEntry.key := by
  unfold setFilled
  induction st with
  | nil => rfl
  | cons e rest ih =>
    simp only [List.map_cons, List.map_map] at ih ⊢
    by_cases he : e.key = k
    · rw [if_pos he]
      exact congrArg _ ih
    · rw [if_neg he]
      exact congrArg _ ih

theorem setFilled_mem_of_ne (k : PendKey) (d : FillMsg) (st : Registry)
    (x : PendEntry) (hx : x ∈ st) (hne : x.key ≠ k) : x ∈ setFilled k d st := by
  unfold setFilled
  have hmem := List.mem_map_of_mem
    (fun e => if e.key = k then { e with fillData := some d } else e) hx
  have heq : (fun e => if e.key = k then { e with fillData := some d } else e) x = x :=
    if_neg hne
  rw [heq] at hmem
  exact hmem

/-- C10: `on_fill` resolves a waiter only when the event carries an order
id that matches a registration (via the composite-key / symbol-key /
bare-id chain) and its status is PARTIALLY_FILLED or FILLED; an event
with no order id (or the falsy id 0), with any other status, or matching
no registration leaves the registry unchanged; and a resolving event only
sets the matched entry's fill data: the key set is unchanged and every
non-matching entry is untouched. -/
theorem onFill_resolution_spec (msg : FillMsg) (marketArg : Option String) (st : Registry) :
    (msg.orderId = none → onFill msg marketArg st = st) ∧
    (msg.orderId = some 0 → onFill msg marketArg st = st) ∧
    (¬ (msg.status = "PARTIALLY_FILLED" ∨ msg.status = "FILLED") →
       onFill msg marketArg st = st) ∧
    (∀ oid, msg.orderId = some oid → oid ≠ 0 →
       lookupPending msg marketArg oid st = none → onFill msg marketArg st = st) ∧
    (∀ oid e, msg.orderId = some oid → oid ≠ 0 →
       (msg.status = "PARTIALLY_FILLED" ∨ msg.status = "FILLED") →
       lookupPending msg marketArg oid st = some e →
       onFill msg marketArg st = setFilled e.key msg st ∧
       (setFilled e.key msg st).map PendEntry.key = st.map PendEntry.key ∧
       (∀ x ∈ st, x.key ≠ e.key → x ∈ setFilled e.key msg st)) := by
  refine ⟨?_, ?_, ?_, ?_, ?_⟩
  · intro h
    simp [onFill, h]
  · intro h
    simp [onFill, h]
  · intro h
    cases hid : msg.orderId with
    | none => simp [onFill, hid]
    | some oid =>
      by_cases h0 : oid = 0
      · simp [onFill, hid, h0]
      · cases hlk : lookupPending msg marketArg oid st with
        | none => simp [onFill, hid, h0, hlk]
        | some e => simp [onFill, hid, h0, hlk, h]
  · intro oid hid h0 hlk
    simp [onFill, hid, h0, hlk]
  · intro oid e hid h0 hst hlk
    refine ⟨?_, setFilled_keys e.key msg st,
      fun x hx hne => setFilled_mem_of_ne e.key msg st x hx hne⟩
    simp [onFill, hid, h0, hlk, hst]

/-- C10 witness data: a registry with one registration under a composite
key, and a matching PARTIALLY_FILLED event. -/
def cexPendEntry : PendEntry :=
  { key := makeKey 7 (some "BTCUSDT") (some "cm"), orderId := 7, fillData := none }

def cexFillMsg : FillMsg :=
  { orderId := some 7, symbol := some "BTCUSDT", market := some "cm",
    status := "PARTIALLY_FILLED", lastQty := 4, cumQty := 4 }

/-- C10 witness: the resolving case and the ignored-status case evaluated
on the concrete registry. -/
theorem onFill_resolution_spec_witness :
    onFill cexFillMsg (some "cm") [cexPendEntry] =
      setFilled cexPendEntry.key cexFillMsg [cexPendEntry] ∧
    onFill { cexFillMsg with status := "NEW" } (some "cm") [cexPendEntry] = [cexPendEntry] := by
  constructor
  · exact ((onFill_resolution_spec cexFillMsg (some "cm") [cexPendEntry]).2.2.2.2 7 cexPendEntry
      rfl (by decide) (Or.inl rfl) (by decide)).1
  · exact (onFill_resolution_spec { cexFillMsg with status := "NEW" } (some "cm")
      [cexPendEntry]).2.2.1 (by decide)

/-! Embedding of the market-data bus keying: `Bus` from
`src/arbitrage/data/bus.py` retains the latest value per `(topic, key)`;
`run_orderbook_ws` (`src/arbitrage/data/adapters/binance/ws_orderbook.py`)
publishes the book as `bus.publish(Topic.ORDERBOOK, sym_u, ob)` — the key
is the upper-cased symbol alone, the venue kind is not part of it — and
`_get_ob` in `src/arbitrage/exchanges/legs.py` reads
`bus.latest(Topic.ORDERBOOK, symbol.upper())`. -/

/-- An `OrderBook` value as published on the bus. -/
structure OrderBookMsg where
  symbol : String
  bids : List (ℚ × ℚ)
  asks : List (ℚ × ℚ)
deriving DecidableEq

/-- The bus's `self._latest` dict, keyed by `(topic, key)`. -/
abbrev BusLatest := List ((String × String) × OrderBookMsg)

/-- `publish`: overwrite the retained latest value for `(topic, key)`. -/
def busPublish (topic key : String) (v : OrderBookMsg) (m : BusLatest) : BusLatest :=
  ((topic, key), v) :: m.filter (fun e => decide (e.1 ≠ (topic, key)))

/-- `latest(topic, key)`. -/
def busLatest (topic key : String) (m : BusLatest) : Option OrderBookMsg :=
  (m.find? (fun e => decide (e.1 = (topic, key)))).map Prod.snd

/-- The publish step of `run_orderbook_ws` for venue kind `kind` and
symbol `symbol`: `bus.publish(Topic.ORDERBOOK, sym_u, ob)` — the key is
the symbol alone (`sym_u = symbol.upper()`, taken here as already
upper-case); `kind` selects the stream endpoint but is dropped from the
bus key. -/
def runOrderbookPublish (kind symbol : String) (v : OrderBookMsg) (m : BusLatest) : BusLatest :=
  busPublish "orderbook" symbol v m

/-- `_get_ob(symbol)` from `legs.py`: `bus.latest(Topic.ORDERBOOK,
symbol.upper())`, the symbol taken as already upper-case. -/
def legsGetOb (symbol : String) (m : BusLatest) : Option OrderBookMsg :=
  busLatest "orderbook" symbol m

def cexObSpot : OrderBookMsg :=
  { symbol := "BTCUSDT", bids := [((100 : ℚ), (1 : ℚ))], asks := [((101 : ℚ), (1 : ℚ))] }

def cexObUm : OrderBookMsg :=
  { symbol := "BTCUSDT", bids := [((200 : ℚ), (1 : ℚ))], asks := [((201 : ℚ), (1 : ℚ))] }

/-- C9 (code bug): with the spot leg's book for BTCUSDT published and
then the USDT-M leg's book for the same symbol string published,
`run_orderbook_ws`'s symbol-only bus key makes the second publication
overwrite the first: a read for the spot leg now returns the USDT-M
book. The two venue-kinds alias one `(topic, symbol)` entry, violating
the required `(venue-kind, symbol)` scoping — which the repo's own
`scripts/sanity_market_key.py` ("market key must include kind") and the
kind-prefixed META key in `DataService._start_symbol` document as the
intent. -/
theorem orderbook_bus_key_aliasing :
    legsGetOb "BTCUSDT" (runOrderbookPublish "spot" "BTCUSDT" cexObSpot []) = some cexObSpot ∧
    legsGetOb "BTCUSDT"
      (runOrderbookPublish "usdtm" "BTCUSDT" cexObUm
        (runOrderbookPublish "spot" "BTCUSDT" cexObSpot [])) = some cexObUm ∧
    cexObUm ≠ cexObSpot := by
  refine ⟨by decide, by decide, by decide⟩

end Arb
